import Mathlib

/-!
Verification of the image-alignment and flux-normalization core of
`pymusepipe` (file `pymusepipe/align_pipe_FS.py`), against its
natural-language specification.

The Python code is shallowly embedded over exact rationals (`ℚ`):

* numpy 2-vectors are pairs `ℚ × ℚ`;
* the 2×2 WCS pixel-scale matrix is a `Mat2` record;
* `np.linalg.inv`, which raises `LinAlgError` on a singular matrix, becomes an
  `Option`-valued inverse;
* images are index functions with an explicit shape, and numpy slicing,
  boolean masks, `np.median`, `astropy.stats.mad_std`, `np.percentile`,
  `np.argmax` and friends are modelled as total list computations;
* the mutable per-exposure arrays of `AlignMusePointing` become an explicit
  state record, and the one claim about numpy array aliasing (`C10`) uses an
  explicit store of array identifiers.

Floating point is modelled by exact rational arithmetic, so "within floating
tolerance" statements become exact equalities.
-/

/- The rational operations of the standard library are `@[irreducible]`, which
blocks kernel evaluation of concrete witnesses; re-allow unfolding them. -/
set_option allowUnsafeReducibility true in
attribute [semireducible] Rat.add Rat.mul Rat.inv Rat.sub Rat.ofScientific

/-- Numpy 2-vectors (offsets in pixel or arcsecond units). -/
abbrev Vec2 := ℚ × ℚ

/-- Elementwise addition of 2-vectors (numpy `+` on shape-(2,) arrays). -/
def addV (u v : Vec2) : Vec2 := (u.1 + v.1, u.2 + v.2)

/-- A 2×2 matrix over `ℚ`: the `pixel_scale_matrix` of an image's WCS. -/
structure Mat2 where
  a : ℚ
  b : ℚ
  c : ℚ
  d : ℚ
deriving DecidableEq

/-- Determinant of a 2×2 matrix. -/
def Mat2.det (M : Mat2) : ℚ := M.a * M.d - M.b * M.c

/-- Matrix–vector product. -/
def Mat2.mulVec (M : Mat2) (v : Vec2) : Vec2 :=
  (M.a * v.1 + M.b * v.2, M.c * v.1 + M.d * v.2)

/-- Scalar multiple of a matrix (`pixel_scale_matrix * 3600.` in the source). -/
def Mat2.scale (t : ℚ) (M : Mat2) : Mat2 := ⟨t * M.a, t * M.b, t * M.c, t * M.d⟩

/-- Matrix product. -/
def Mat2.mul (M N : Mat2) : Mat2 :=
  ⟨M.a * N.a + M.b * N.c, M.a * N.b + M.b * N.d,
   M.c * N.a + M.d * N.c, M.c * N.b + M.d * N.d⟩

/-- The identity matrix. -/
def Mat2.one : Mat2 := ⟨1, 0, 0, 1⟩

/-- Matrix inverse, `np.linalg.inv`: raises `LinAlgError` (here: `none`) on a
singular matrix, otherwise returns the adjugate divided by the determinant. -/
def Mat2.inv2 (M : Mat2) : Option Mat2 :=
  if M.det = 0 then none
  else some ⟨M.d / M.det, -M.b / M.det, -M.c / M.det, M.a / M.det⟩

/-- Source `pixel_to_arcsec(hdu, xy_pixel)`: with `M` the WCS
`pixel_scale_matrix`, returns
`(sum(dels * M[0,:] * 3600), sum(dels * M[1,:] * 3600))`. -/
def pixel_to_arcsec (M : Mat2) (v : Vec2) : Vec2 :=
  (v.1 * (M.a * 3600) + v.2 * (M.b * 3600),
   v.1 * (M.c * 3600) + v.2 * (M.d * 3600))

/-- Source `arcsec_to_pixel(hdu, xy_arcsec)`: computes
`scale_matrix = np.linalg.inv(pixel_scale_matrix * 3600.)` (raising on a
singular matrix, modelled by `Option`) and returns
`(sum(dels * scale_matrix[0,:]), sum(dels * scale_matrix[1,:]))`. -/
def arcsec_to_pixel (M : Mat2) (v : Vec2) : Option Vec2 :=
  (Mat2.inv2 (Mat2.scale 3600 M)).map
    (fun S => (v.1 * S.a + v.2 * S.b, v.1 * S.c + v.2 * S.d))

theorem Mat2.det_scale (t : ℚ) (M : Mat2) :
    (Mat2.scale t M).det = t ^ 2 * M.det := by
  simp only [Mat2.scale, Mat2.det]
  ring

theorem Mat2.det_scale3600_ne (M : Mat2) (h : M.det ≠ 0) :
    (Mat2.scale 3600 M).det ≠ 0 := by
  rw [Mat2.det_scale]
  exact mul_ne_zero (by norm_num) h

/-- If the scale matrix is invertible, `arcsec_to_pixel` succeeds and returns
the inverse matrix applied to the input. -/
theorem arcsec_to_pixel_some (M : Mat2) (h : M.det ≠ 0) (v : Vec2) :
    arcsec_to_pixel M v =
      some (v.1 * (Mat2.scale 3600 M).d / (Mat2.scale 3600 M).det
              + v.2 * (-(Mat2.scale 3600 M).b / (Mat2.scale 3600 M).det),
            v.1 * (-(Mat2.scale 3600 M).c / (Mat2.scale 3600 M).det)
              + v.2 * ((Mat2.scale 3600 M).a / (Mat2.scale 3600 M).det)) := by
  have hS := Mat2.det_scale3600_ne M h
  simp only [arcsec_to_pixel, Mat2.inv2, if_neg hS, Option.map_some']
  congr 1
  congr 1
  ring

/-- Converting a pixel vector to arcseconds and back recovers it exactly. -/
theorem arcsec_of_pixel_roundtrip (M : Mat2) (h : M.det ≠ 0) (v : Vec2) :
    arcsec_to_pixel M (pixel_to_arcsec M v) = some v := by
  have hS := Mat2.det_scale3600_ne M h
  rw [arcsec_to_pixel_some M h]
  simp only [Mat2.scale, Mat2.det, pixel_to_arcsec] at *
  congr 1
  obtain ⟨x, y⟩ := v
  simp only [Prod.mk.injEq]
  constructor <;> · field_simp; ring

/-- Converting an arcsecond vector to pixels (successfully) and back recovers
it exactly. -/
theorem pixel_of_arcsec_roundtrip (M : Mat2) (h : M.det ≠ 0) (v w : Vec2)
    (hw : arcsec_to_pixel M v = some w) : pixel_to_arcsec M w = v := by
  have hS := Mat2.det_scale3600_ne M h
  rw [arcsec_to_pixel_some M h] at hw
  obtain rfl := (Option.some_injective _ hw).symm
  simp only [Mat2.scale, Mat2.det, pixel_to_arcsec] at *
  obtain ⟨x, y⟩ := v
  simp only [Prod.mk.injEq]
  constructor <;> · field_simp; ring

/-- The pixel-to-arcsecond map is additive. -/
theorem pixel_to_arcsec_addV (M : Mat2) (u v : Vec2) :
    pixel_to_arcsec M (addV u v) = addV (pixel_to_arcsec M u) (pixel_to_arcsec M v) := by
  simp only [pixel_to_arcsec, addV, Prod.mk.injEq]
  constructor <;> ring

/-- The pixel-to-arcsecond map is injective when the scale matrix is
invertible. -/
theorem pixel_to_arcsec_inj (M : Mat2) (h : M.det ≠ 0) (u v : Vec2)
    (huv : pixel_to_arcsec M u = pixel_to_arcsec M v) : u = v := by
  have h1 := arcsec_of_pixel_roundtrip M h u
  have h2 := arcsec_of_pixel_roundtrip M h v
  rw [huv] at h1
  rw [h1] at h2
  exact Option.some_injective _ h2

/-- Zero is a fixed point of the pixel-to-arcsecond map. -/
theorem pixel_to_arcsec_zero (M : Mat2) : pixel_to_arcsec M (0, 0) = (0, 0) := by
  simp only [pixel_to_arcsec]
  norm_num

/-- C3: for every invertible 2×2 pixel-scale matrix `M` and every 2-vector
`v`, `pixel_to_arcsec` multiplies by the pixel-to-angle matrix `3600·M`,
`arcsec_to_pixel` succeeds and multiplies by its two-sided inverse, and
converting `v` from arcseconds to pixels and back returns `v` exactly
(so in particular within any floating tolerance). -/
theorem coordinate_roundtrip (M : Mat2) (v : Vec2) (h : M.det ≠ 0) :
    pixel_to_arcsec M v = (Mat2.scale 3600 M).mulVec v ∧
    ∃ Minv, Mat2.inv2 (Mat2.scale 3600 M) = some Minv ∧
      Mat2.mul (Mat2.scale 3600 M) Minv = Mat2.one ∧
      Mat2.mul Minv (Mat2.scale 3600 M) = Mat2.one ∧
      arcsec_to_pixel M v = some (Minv.mulVec v) ∧
      pixel_to_arcsec M (Minv.mulVec v) = v := by
  have hS := Mat2.det_scale3600_ne M h
  obtain ⟨a, b, c, d⟩ := M
  obtain ⟨x, y⟩ := v
  simp only [Mat2.det] at h
  have hΔ : (3600 * a) * (3600 * d) - (3600 * b) * (3600 * c) ≠ 0 := by
    simpa only [Mat2.det, Mat2.scale] using hS
  have hinv : Mat2.inv2 (Mat2.scale 3600 ⟨a, b, c, d⟩) =
      some ⟨(3600 * d) / ((3600 * a) * (3600 * d) - (3600 * b) * (3600 * c)),
            -(3600 * b) / ((3600 * a) * (3600 * d) - (3600 * b) * (3600 * c)),
            -(3600 * c) / ((3600 * a) * (3600 * d) - (3600 * b) * (3600 * c)),
            (3600 * a) / ((3600 * a) * (3600 * d) - (3600 * b) * (3600 * c))⟩ := by
    simp only [Mat2.inv2, Mat2.scale, Mat2.det, if_neg hΔ]
  refine ⟨?_, _, hinv, ?_, ?_, ?_, ?_⟩
  · simp only [pixel_to_arcsec, Mat2.scale, Mat2.mulVec, Prod.mk.injEq]
    constructor <;> ring
  · simp only [Mat2.mul, Mat2.scale, Mat2.one, Mat2.mk.injEq]
    refine ⟨?_, ?_, ?_, ?_⟩ <;> · field_simp; ring
  · simp only [Mat2.mul, Mat2.scale, Mat2.one, Mat2.mk.injEq]
    refine ⟨?_, ?_, ?_, ?_⟩ <;> · field_simp; ring
  · simp only [arcsec_to_pixel, hinv, Option.map_some', Mat2.mulVec,
      Option.some.injEq, Prod.mk.injEq]
    constructor <;> ring
  · simp only [pixel_to_arcsec, Mat2.mulVec, Prod.mk.injEq]
    constructor <;> · field_simp; ring

/-- Witness for C3 at the identity pixel-scale matrix and `v = (2, 3)`. -/
theorem coordinate_roundtrip_witness :
    pixel_to_arcsec ⟨1, 0, 0, 1⟩ (2, 3) = (Mat2.scale 3600 ⟨1, 0, 0, 1⟩).mulVec (2, 3) ∧
    ∃ Minv, Mat2.inv2 (Mat2.scale 3600 ⟨1, 0, 0, 1⟩) = some Minv ∧
      Mat2.mul (Mat2.scale 3600 ⟨1, 0, 0, 1⟩) Minv = Mat2.one ∧
      Mat2.mul Minv (Mat2.scale 3600 ⟨1, 0, 0, 1⟩) = Mat2.one ∧
      arcsec_to_pixel ⟨1, 0, 0, 1⟩ (2, 3) = some (Minv.mulVec (2, 3)) ∧
      pixel_to_arcsec ⟨1, 0, 0, 1⟩ (Minv.mulVec (2, 3)) = (2, 3) :=
  coordinate_roundtrip ⟨1, 0, 0, 1⟩ (2, 3) (by decide)

/-- Insertion of a value into an ascending-sorted list. -/
def insertSorted (x : ℚ) : List ℚ → List ℚ
  | [] => [x]
  | y :: ys => if x ≤ y then x :: y :: ys else y :: insertSorted x ys

/-- Ascending sort of the values; models the sorting underlying `np.median`
and `np.percentile`. -/
def sortAsc (l : List ℚ) : List ℚ := l.foldr insertSorted []

/-- Source-level `np.median` of the flattened values: middle element of the
sorted data for odd length, mean of the two middle elements for even length.
(`np.median` of an empty array is NaN with a warning; that case is
represented by the junk value `0` and is outside every claim proved here.) -/
def np_median (l : List ℚ) : ℚ :=
  let s := sortAsc l
  if s.length % 2 = 1 then s.getD (s.length / 2) 0
  else (s.getD (s.length / 2 - 1) 0 + s.getD (s.length / 2) 0) / 2

/-- The consistency constant of `astropy.stats.mad_std`
(`1 / scipy.stats.norm.ppf(3/4)`), as the decimal constant used there. -/
def mad_std_scale : ℚ := 1.482602218505602

/-- Source-level `astropy.stats.mad_std`: the median absolute deviation from
the median, scaled to be a consistent estimator of a Gaussian sigma. -/
def mad_std (l : List ℚ) : ℚ :=
  mad_std_scale * np_median (l.map (fun x => |x - np_median l|))

/-- Source-level `np.percentile` with the default linear interpolation: the
`p`-th percentile sits at virtual index `p/100 * (n-1)` of the sorted data.
`np.percentile` raises on an empty array, modelled by `none`. (For
`p` outside `[0, 100]` numpy also raises; no claim below uses such a `p`.) -/
def np_percentile (l : List ℚ) (p : ℚ) : Option ℚ :=
  let s := sortAsc l
  if s.length = 0 then none
  else
    let rank : ℚ := p * ((s.length : ℚ) - 1) / 100
    let lo : ℕ := (Rat.floor rank).toNat
    some (s.getD lo 0 + (rank - lo) * (s.getD (lo + 1) 0 - s.getD lo 0))

/-- Source-level `np.min` reduction (numpy raises on an empty array; the `[]`
case is junk and unused). -/
def np_min (l : List ℚ) : ℚ :=
  match l with
  | [] => 0
  | x :: xs => xs.foldl min x

/-- Source-level `np.max` reduction (numpy raises on an empty array; the `[]`
case is junk and unused). -/
def np_max (l : List ℚ) : ℚ :=
  match l with
  | [] => 0
  | x :: xs => xs.foldl max x

/-- Helper for `np_argmax`: best index, best value, index of the next
element. Strict `<` keeps the first maximum, like `np.argmax`. -/
def argmaxAux (l : List ℚ) (bi : ℕ) (bv : ℚ) (ci : ℕ) : ℕ :=
  match l with
  | [] => bi
  | y :: ys => if bv < y then argmaxAux ys ci y (ci + 1) else argmaxAux ys bi bv (ci + 1)

/-- Source-level `np.argmax` of a flattened array: index of the first
maximal element in row-major scan order (numpy raises on an empty array). -/
def np_argmax (l : List ℚ) : ℕ :=
  match l with
  | [] => 0
  | x :: xs => argmaxAux xs 0 x 1

theorem le_foldl_max (xs : List ℚ) (b : ℚ) :
    b ≤ xs.foldl max b ∧ ∀ y ∈ xs, y ≤ xs.foldl max b := by
  induction xs generalizing b with
  | nil => exact ⟨le_refl b, by simp⟩
  | cons y ys ih =>
    obtain ⟨h1, h2⟩ := ih (max b y)
    refine ⟨le_trans (le_max_left b y) h1, ?_⟩
    intro z hz
    rcases List.mem_cons.mp hz with rfl | hz
    · exact le_trans (le_max_right b z) h1
    · exact h2 z hz

theorem le_np_max (l : List ℚ) (x : ℚ) (hx : x ∈ l) : x ≤ np_max l := by
  match l with
  | y :: ys =>
    rcases List.mem_cons.mp hx with rfl | hx
    · exact (le_foldl_max ys x).1
    · exact (le_foldl_max ys y).2 x hx

theorem foldl_min_le (xs : List ℚ) (b : ℚ) :
    xs.foldl min b ≤ b ∧ ∀ y ∈ xs, xs.foldl min b ≤ y := by
  induction xs generalizing b with
  | nil => exact ⟨le_refl b, by simp⟩
  | cons y ys ih =>
    obtain ⟨h1, h2⟩ := ih (min b y)
    refine ⟨le_trans h1 (min_le_left b y), ?_⟩
    intro z hz
    rcases List.mem_cons.mp hz with rfl | hz
    · exact le_trans h1 (min_le_right b z)
    · exact h2 z hz

theorem np_min_le (l : List ℚ) (x : ℚ) (hx : x ∈ l) : np_min l ≤ x := by
  match l with
  | y :: ys =>
    rcases List.mem_cons.mp hx with rfl | hx
    · exact (foldl_min_le ys x).1
    · exact (foldl_min_le ys y).2 x hx

theorem argmaxAux_spec (xs : List ℚ) : ∀ (bi ci : ℕ) (bv : ℚ),
    (argmaxAux xs bi bv ci = bi ∧ xs.foldl max bv = bv) ∨
    (∃ k, k < xs.length ∧ argmaxAux xs bi bv ci = ci + k ∧
      xs.getD k 0 = xs.foldl max bv) := by
  induction xs with
  | nil => intro bi ci bv; exact Or.inl ⟨rfl, rfl⟩
  | cons y ys ih =>
    intro bi ci bv
    by_cases hy : bv < y
    · have hmax : (y :: ys).foldl max bv = ys.foldl max y := by
        simp [List.foldl_cons, max_eq_right (le_of_lt hy)]
      rw [show argmaxAux (y :: ys) bi bv ci = argmaxAux ys ci y (ci + 1) by
        simp [argmaxAux, hy]]
      rcases ih ci (ci + 1) y with ⟨h1, h2⟩ | ⟨k, hk, h1, h2⟩
      · refine Or.inr ⟨0, by simp, by simpa using h1, ?_⟩
        simp [hmax, h2]
      · refine Or.inr ⟨k + 1, by simpa using hk, by omega, ?_⟩
        simpa [hmax] using h2
    · have hmax : (y :: ys).foldl max bv = ys.foldl max bv := by
        simp [List.foldl_cons, max_eq_left (not_lt.mp hy)]
      rw [show argmaxAux (y :: ys) bi bv ci = argmaxAux ys bi bv (ci + 1) by
        simp [argmaxAux, hy]]
      rcases ih bi (ci + 1) bv with ⟨h1, h2⟩ | ⟨k, hk, h1, h2⟩
      · exact Or.inl ⟨h1, by rw [hmax, h2]⟩
      · refine Or.inr ⟨k + 1, by simpa using hk, by omega, ?_⟩
        simpa [hmax] using h2

/-- The first-maximum index returned by `np_argmax` is in range and holds the
maximal value. -/
theorem np_argmax_spec (l : List ℚ) (hl : l ≠ []) :
    np_argmax l < l.length ∧ l.getD (np_argmax l) 0 = np_max l := by
  match l with
  | x :: xs =>
    rcases argmaxAux_spec xs 0 1 x with ⟨h1, h2⟩ | ⟨k, hk, h1, h2⟩
    · constructor
      · simp [np_argmax, h1]
      · simp [np_argmax, np_max, h1, h2]
    · constructor
      · simp only [np_argmax, h1, List.length_cons]
        omega
      · have hidx : (1 : ℕ) + k = k + 1 := by omega
        simp only [np_argmax, np_max, h1, hidx, List.getD_cons_succ]
        exact h2

/-- A 2-D numpy array: a shape and a value function. Values are only read at
indices below the shape; numpy slicing clips at the shape, which
`Dataset.tile` reproduces with explicit filters. -/
structure Dataset where
  rows : ℕ
  cols : ℕ
  val : ℕ → ℕ → ℚ

/-- Element count, numpy `arr.size`. -/
def Dataset.size (d : Dataset) : ℕ := d.rows * d.cols

/-- The values of the numpy slice
`d[i*c:(i+1)*c, j*c:(j+1)*c]` in row-major order. Python slices clip at the
array bounds, hence the bound filters on the index ranges. -/
def Dataset.tile (d : Dataset) (c i j : ℕ) : List ℚ :=
  ((((List.range c).map (fun a => i * c + a)).filter
      (fun r => decide (r < d.rows))).flatMap
    (fun r =>
      ((((List.range c).map (fun b => j * c + b)).filter
          (fun s => decide (s < d.cols))).map (fun s => d.val r s))))

/-- Source `chunk_stats(list_data, chunk_size)`. Mirrors the source exactly:

* `nchunk_x = list_data[0].shape[0] // chunk_size - 1` (one less than the
  number of full tile rows; integer, so it can be negative), likewise
  `nchunk_y` from `shape[1]`;
* `med_data`/`std_data` are `np.zeros((ndatasets, nchunk_x*nchunk_y))`;
* the guard is `all([d.size for d in list_data])` — a truthiness test that
  flags an error (printed, no exception; first component `true`) exactly when
  some input has zero size, leaving the arrays zero;
* otherwise the loops over `i < nchunk_x`, `j < nchunk_y`, `k < ndatasets`
  write `med_data[k, i*nchunk_y + j] = np.median(tile)` and
  `std_data[k, i*nchunk_y + j] = mad_std(tile)`; they fill the flat indices
  `0..nchunk_x*nchunk_y-1` exactly once each in increasing order, which the
  `List.range` map reproduces (`m = i*nchunk_y + j`, `i = m / nchunk_y`,
  `j = m % nchunk_y`); when a chunk count is not positive the loops do not
  run and the arrays stay zero.

(When exactly one chunk count is negative, `np.zeros` would raise on the
negative dimension; no claim below touches that region. `list_data[0]` on an
empty list would raise `IndexError`; the `[]` case is junk and unused.) -/
def chunk_stats (list_data : List Dataset) (chunk_size : ℕ) :
    Bool × List (List ℚ) × List (List ℚ) :=
  match list_data with
  | [] => (false, [], [])
  | d0 :: _ =>
    let nchunk_x : ℤ := ((d0.rows / chunk_size : ℕ) : ℤ) - 1
    let nchunk_y : ℤ := ((d0.cols / chunk_size : ℕ) : ℤ) - 1
    let nflat : ℕ := (nchunk_x * nchunk_y).toNat
    let ny : ℕ := nchunk_y.toNat
    if list_data.all (fun d => decide (d.size ≠ 0)) then
      if 0 < nchunk_x ∧ 0 < nchunk_y then
        (false,
         list_data.map (fun d => (List.range nflat).map
           (fun m => np_median (d.tile chunk_size (m / ny) (m % ny)))),
         list_data.map (fun d => (List.range nflat).map
           (fun m => mad_std (d.tile chunk_size (m / ny) (m % ny)))))
      else
        (false,
         list_data.map (fun _ => List.replicate nflat 0),
         list_data.map (fun _ => List.replicate nflat 0))
    else
      (true,
       list_data.map (fun _ => List.replicate nflat 0),
       list_data.map (fun _ => List.replicate nflat 0))

/-- A 15×15 constant image. -/
def ds15 : Dataset := ⟨15, 15, fun _ _ => 1⟩

/-- C1 counterexample: on a 15×15 image with chunk size 15 (so `c ≤ N`),
`chunk_stats` returns `0` chunk statistics per image, while the claim's
`⌊N/c⌋ × ⌊N/c⌋` formula demands `1`. -/
theorem chunk_stats_chunk_count_cex :
    ((chunk_stats [ds15] 15).2.1.getD 0 []).length = 0 ∧
    ((chunk_stats [ds15] 15).2.2.getD 0 []).length = 0 ∧
    (15 / 15) * (15 / 15) = 1 ∧ (0 : ℕ) ≠ 1 := by decide

/-- The `c×c` tile with corner `(i*c, j*c)` in row-major order, stated from
the spec's wording (no clipping); compared against the source-level
`Dataset.tile` below. -/
def tileSpec (d : Dataset) (c i j : ℕ) : List ℚ :=
  (List.range c).flatMap (fun a => (List.range c).map (fun b => d.val (i * c + a) (j * c + b)))

/-- The pixel `(r, s)` lies in the tile with tile indices `(i, j)`. -/
def inTile (c i j r s : ℕ) : Prop :=
  i * c ≤ r ∧ r < (i + 1) * c ∧ j * c ≤ s ∧ s < (j + 1) * c

theorem getD_range_map (g : ℕ → ℚ) (n m : ℕ) (h : m < n) :
    ((List.range n).map g).getD m 0 = g m := by
  rw [List.getD_eq_getElem?_getD]
  simp [List.getElem?_map, List.getElem?_range, h]

theorem zip_map_left {α β : Type} (f : α → List β) (l : List α)
    (P : List β → α → Prop) (h : ∀ d ∈ l, P (f d) d) :
    ∀ p ∈ (l.map f).zip l, P p.1 p.2 := by
  induction l with
  | nil => simp
  | cons d ds ih =>
    intro p hp
    simp only [List.map_cons, List.zip_cons_cons, List.mem_cons] at hp
    rcases hp with rfl | hp
    · exact h d (by simp)
    · exact ih (fun x hx => h x (by simp [hx])) p hp

theorem tileSpec_length (d : Dataset) (c i j : ℕ) :
    (tileSpec d c i j).length = c * c := by
  simp [tileSpec, List.length_flatMap, List.map_map, Function.comp_def]

/-- Inside the kept chunk grid, the clipping filters of the source-level
slice are inert, so the slice is exactly the full `c×c` tile of the spec. -/
theorem tile_eq_tileSpec (d : Dataset) (c i j : ℕ)
    (h1 : (i + 1) * c ≤ d.rows) (h2 : (j + 1) * c ≤ d.cols) :
    d.tile c i j = tileSpec d c i j := by
  rw [Nat.succ_mul] at h1 h2
  unfold Dataset.tile tileSpec
  have hrow : ((List.range c).map (fun a => i * c + a)).filter
      (fun r => decide (r < d.rows)) = (List.range c).map (fun a => i * c + a) := by
    apply List.filter_eq_self.mpr
    intro r hr
    obtain ⟨a, ha, rfl⟩ := List.mem_map.mp hr
    have ha' := List.mem_range.mp ha
    simp only [decide_eq_true_eq]
    omega
  have hcol : ((List.range c).map (fun b => j * c + b)).filter
      (fun s => decide (s < d.cols)) = (List.range c).map (fun b => j * c + b) := by
    apply List.filter_eq_self.mpr
    intro s hs
    obtain ⟨b, hb, rfl⟩ := List.mem_map.mp hs
    have hb' := List.mem_range.mp hb
    simp only [decide_eq_true_eq]
    omega
  rw [hrow, List.flatMap_map]
  congr 1
  funext a
  rw [hcol, List.map_map]
  rfl

theorem kept_tile_fits (N c i : ℕ) (hc : 0 < c) (hcN : c ≤ N)
    (hi : i < N / c - 1) : (i + 1) * c ≤ N := by
  have h1 : 1 ≤ N / c := (Nat.one_le_div_iff hc).mpr hcN
  have h2 : (i + 1) * c ≤ (N / c) * c :=
    Nat.mul_le_mul_right c (by omega)
  exact le_trans h2 (Nat.div_mul_le_self N c)

/-- C1 (amended): on a list of same-shape `N×N` images with `0 < c ≤ N`,
`chunk_stats` flags no error and returns, per input image, exactly
`(⌊N/c⌋ − 1) × (⌊N/c⌋ − 1)` medians and as many MAD-based robust scales —
one per kept tile — where the kept tiles are the full, pairwise
non-overlapping `c×c` tiles with corners `(i·c, j·c)` for
`i, j < ⌊N/c⌋ − 1`, all lying inside the image (so the trailing tiles are
dropped, one more than the partial row/column of the claim). -/
theorem chunk_stats_partition (ds : List Dataset) (N c : ℕ)
    (hne : ds ≠ []) (hc : 0 < c) (hcN : c ≤ N)
    (hshape : ∀ d ∈ ds, d.rows = N ∧ d.cols = N) :
    (chunk_stats ds c).1 = false ∧
    (chunk_stats ds c).2.1.length = ds.length ∧
    (chunk_stats ds c).2.2.length = ds.length ∧
    (∀ l ∈ (chunk_stats ds c).2.1, l.length = (N / c - 1) * (N / c - 1)) ∧
    (∀ l ∈ (chunk_stats ds c).2.2, l.length = (N / c - 1) * (N / c - 1)) ∧
    (∀ p ∈ ((chunk_stats ds c).2.1).zip ds, ∀ i, i < N / c - 1 → ∀ j, j < N / c - 1 →
        p.1.getD (i * (N / c - 1) + j) 0 = np_median (tileSpec p.2 c i j)) ∧
    (∀ p ∈ ((chunk_stats ds c).2.2).zip ds, ∀ i, i < N / c - 1 → ∀ j, j < N / c - 1 →
        p.1.getD (i * (N / c - 1) + j) 0 = mad_std (tileSpec p.2 c i j)) ∧
    (∀ d : Dataset, ∀ i j : ℕ, (tileSpec d c i j).length = c * c) ∧
    (∀ i, i < N / c - 1 → ∀ a, a < c → i * c + a < N) ∧
    (∀ i j i' j' r s : ℕ, (i, j) ≠ (i', j') →
        ¬(inTile c i j r s ∧ inTile c i' j' r s)) := by
  obtain ⟨d0, ds', rfl⟩ := List.exists_cons_of_ne_nil hne
  obtain ⟨hr0, hc0⟩ := hshape d0 (by simp)
  have hN : 0 < N := lt_of_lt_of_le hc hcN
  have hdiv1 : 1 ≤ N / c := (Nat.one_le_div_iff hc).mpr hcN
  have hguard : (d0 :: ds').all (fun d => decide (d.size ≠ 0)) = true := by
    rw [List.all_eq_true]
    intro d hd
    obtain ⟨hdr, hdc⟩ := hshape d hd
    simp only [decide_eq_true_eq, Dataset.size, hdr, hdc]
    positivity
  have hdisj : ∀ i j i' j' r s : ℕ, (i, j) ≠ (i', j') →
      ¬(inTile c i j r s ∧ inTile c i' j' r s) := by
    intro i j i' j' r s hne'
    rintro ⟨⟨h1, h2, h3, h4⟩, ⟨h5, h6, h7, h8⟩⟩
    have hij : i ≠ i' ∨ j ≠ j' := by
      by_contra hcon
      push_neg at hcon
      exact hne' (by rw [hcon.1, hcon.2])
    rcases hij with hii | hjj
    · rcases Nat.lt_or_ge i i' with hlt | hge
      · have : (i + 1) * c ≤ i' * c := Nat.mul_le_mul_right c hlt
        omega
      · have hlt : i' < i := by omega
        have : (i' + 1) * c ≤ i * c := Nat.mul_le_mul_right c hlt
        omega
    · rcases Nat.lt_or_ge j j' with hlt | hge
      · have : (j + 1) * c ≤ j' * c := Nat.mul_le_mul_right c hlt
        omega
      · have hlt : j' < j := by omega
        have : (j' + 1) * c ≤ j * c := Nat.mul_le_mul_right c hlt
        omega
  have hbound : ∀ i, i < N / c - 1 → ∀ a, a < c → i * c + a < N := by
    intro i hi a ha
    have := kept_tile_fits N c i hc hcN hi
    rw [Nat.succ_mul] at this
    omega
  simp only [chunk_stats, hr0, hc0, hguard, if_true]
  by_cases hbig : 1 < N / c
  · rw [if_pos (by constructor <;> omega)]
    dsimp only
    have htoN : ((((N / c : ℕ) : ℤ) - 1) * (((N / c : ℕ) : ℤ) - 1)).toNat
        = (N / c - 1) * (N / c - 1) := by
      have h1 : ((N / c : ℕ) : ℤ) - 1 = ((N / c - 1 : ℕ) : ℤ) := by omega
      rw [h1, ← Nat.cast_mul, Int.toNat_natCast]
    have hyN : (((N / c : ℕ) : ℤ) - 1).toNat = N / c - 1 := by omega
    refine ⟨rfl, by simp, by simp, ?_, ?_, ?_, ?_,
      fun d i j => tileSpec_length d c i j, hbound, hdisj⟩
    · intro l hl
      obtain ⟨d, hd, rfl⟩ := List.mem_map.mp hl
      simp only [List.length_map, List.length_range]
      exact htoN
    · intro l hl
      obtain ⟨d, hd, rfl⟩ := List.mem_map.mp hl
      simp only [List.length_map, List.length_range]
      exact htoN
    · refine zip_map_left _ (d0 :: ds')
        (fun row d => ∀ i, i < N / c - 1 → ∀ j, j < N / c - 1 →
          row.getD (i * (N / c - 1) + j) 0 = np_median (tileSpec d c i j)) ?_
      intro d hd i hi j hj
      obtain ⟨hdr, hdc⟩ := hshape d hd
      have hidx : i * (N / c - 1) + j < (N / c - 1) * (N / c - 1) := by
        calc i * (N / c - 1) + j < i * (N / c - 1) + (N / c - 1) := by omega
        _ = (i + 1) * (N / c - 1) := by ring
        _ ≤ (N / c - 1) * (N / c - 1) := Nat.mul_le_mul_right _ (by omega)
      rw [htoN, hyN, getD_range_map _ _ _ hidx]
      have hdi : (i * (N / c - 1) + j) / (N / c - 1) = i := by
        rw [Nat.mul_comm i (N / c - 1), Nat.mul_add_div (by omega), Nat.div_eq_of_lt hj]
        omega
      have hmo : (i * (N / c - 1) + j) % (N / c - 1) = j := by
        rw [Nat.mul_comm i (N / c - 1), Nat.mul_add_mod]
        exact Nat.mod_eq_of_lt hj
      rw [hdi, hmo, tile_eq_tileSpec]
      · rw [hdr]; exact kept_tile_fits N c i hc hcN hi
      · rw [hdc]; exact kept_tile_fits N c j hc hcN hj
    · refine zip_map_left _ (d0 :: ds')
        (fun row d => ∀ i, i < N / c - 1 → ∀ j, j < N / c - 1 →
          row.getD (i * (N / c - 1) + j) 0 = mad_std (tileSpec d c i j)) ?_
      intro d hd i hi j hj
      obtain ⟨hdr, hdc⟩ := hshape d hd
      have hidx : i * (N / c - 1) + j < (N / c - 1) * (N / c - 1) := by
        calc i * (N / c - 1) + j < i * (N / c - 1) + (N / c - 1) := by omega
        _ = (i + 1) * (N / c - 1) := by ring
        _ ≤ (N / c - 1) * (N / c - 1) := Nat.mul_le_mul_right _ (by omega)
      rw [htoN, hyN, getD_range_map _ _ _ hidx]
      have hdi : (i * (N / c - 1) + j) / (N / c - 1) = i := by
        rw [Nat.mul_comm i (N / c - 1), Nat.mul_add_div (by omega), Nat.div_eq_of_lt hj]
        omega
      have hmo : (i * (N / c - 1) + j) % (N / c - 1) = j := by
        rw [Nat.mul_comm i (N / c - 1), Nat.mul_add_mod]
        exact Nat.mod_eq_of_lt hj
      rw [hdi, hmo, tile_eq_tileSpec]
      · rw [hdr]; exact kept_tile_fits N c i hc hcN hi
      · rw [hdc]; exact kept_tile_fits N c j hc hcN hj
  · have hdiv : N / c = 1 := by omega
    rw [if_neg (by rw [hdiv]; simp)]
    dsimp only
    have hz : (N / c - 1) * (N / c - 1) = 0 := by rw [hdiv]
    have hflat : ((((N / c : ℕ) : ℤ) - 1) * (((N / c : ℕ) : ℤ) - 1)).toNat = 0 := by
      rw [hdiv]
      simp
    refine ⟨rfl, by simp, by simp, ?_, ?_, ?_, ?_,
      fun d i j => tileSpec_length d c i j, hbound, hdisj⟩
    · intro l hl
      obtain ⟨d, hd, rfl⟩ := List.mem_map.mp hl
      simp only [List.length_replicate]
      rw [hflat, hz]
    · intro l hl
      obtain ⟨d, hd, rfl⟩ := List.mem_map.mp hl
      simp only [List.length_replicate]
      rw [hflat, hz]
    · refine zip_map_left _ (d0 :: ds')
        (fun row d => ∀ i, i < N / c - 1 → ∀ j, j < N / c - 1 →
          row.getD (i * (N / c - 1) + j) 0 = np_median (tileSpec d c i j)) ?_
      intro d hd i hi j hj
      rw [hdiv] at hi
      omega
    · refine zip_map_left _ (d0 :: ds')
        (fun row d => ∀ i, i < N / c - 1 → ∀ j, j < N / c - 1 →
          row.getD (i * (N / c - 1) + j) 0 = mad_std (tileSpec d c i j)) ?_
      intro d hd i hi j hj
      rw [hdiv] at hi
      omega

/-- A 10×10 constant image (shape differs from `ds15`). -/
def ds10 : Dataset := ⟨10, 10, fun _ _ => 1⟩

/-- C6 [code bug in the source]: `chunk_stats`'s guard is
`all([d.size for d in list_data])` — truthiness of the sizes — although its
comment says "Check that all datasets have the same size"; two images of
different shapes (15×15 and 10×10) pass the guard and no error is flagged,
contradicting the claimed `ShapeMismatch` failure. -/
theorem chunk_stats_no_shape_check :
    (chunk_stats [ds15, ds10] 15).1 = false ∧
    (ds15.rows, ds15.cols) ≠ (ds10.rows, ds10.cols) := by decide

/-- A 4×4 image with non-constant values, for the C1 witness. -/
def ds4 : Dataset := ⟨4, 4, fun r s => (r : ℚ) + s⟩

/-- Witness for the amended C1 on a 4×4 image with chunk size 2. -/
theorem chunk_stats_partition_witness :
    (chunk_stats [ds4] 2).1 = false ∧
    (chunk_stats [ds4] 2).2.1.length = [ds4].length ∧
    (chunk_stats [ds4] 2).2.2.length = [ds4].length ∧
    (∀ l ∈ (chunk_stats [ds4] 2).2.1, l.length = (4 / 2 - 1) * (4 / 2 - 1)) ∧
    (∀ l ∈ (chunk_stats [ds4] 2).2.2, l.length = (4 / 2 - 1) * (4 / 2 - 1)) ∧
    (∀ p ∈ ((chunk_stats [ds4] 2).2.1).zip [ds4], ∀ i, i < 4 / 2 - 1 → ∀ j, j < 4 / 2 - 1 →
        p.1.getD (i * (4 / 2 - 1) + j) 0 = np_median (tileSpec p.2 2 i j)) ∧
    (∀ p ∈ ((chunk_stats [ds4] 2).2.2).zip [ds4], ∀ i, i < 4 / 2 - 1 → ∀ j, j < 4 / 2 - 1 →
        p.1.getD (i * (4 / 2 - 1) + j) 0 = mad_std (tileSpec p.2 2 i j)) ∧
    (∀ d : Dataset, ∀ i j : ℕ, (tileSpec d 2 i j).length = 2 * 2) ∧
    (∀ i, i < 4 / 2 - 1 → ∀ a, a < 2 → i * 2 + a < 4) ∧
    (∀ i j i' j' r s : ℕ, (i, j) ≠ (i', j') →
        ¬(inTile 2 i j r s ∧ inTile 2 i' j' r s)) :=
  chunk_stats_partition [ds4] 4 2 (List.cons_ne_nil ds4 [])
    (by decide) (by decide)
    (by intro d hd; obtain rfl := List.mem_singleton.mp hd; exact ⟨rfl, rfl⟩)

/-- Source `my_linear(B, x) = B[1] * (x + B[0])`, the model function handed
to the ODR solver. -/
def my_linear (B : ℚ × ℚ) (x : ℚ) : ℚ := B.2 * (x + B.1)

/-- The inputs handed to `scipy.odr.ODR`: the data arrays of
`RealData(x, y, sx=sx, sy=sy)` and the seed `beta0`. The ODR solver itself is
an external numerical collaborator; the claims verified here are about what
is passed to it. -/
structure ODRInput where
  x : List ℚ
  y : List ℚ
  sx : List ℚ
  sy : List ℚ
  beta0 : ℚ × ℚ
deriving DecidableEq

/-- Source `regress_odr(x, y, sx, sy, beta0=[0., 1.])`: builds
`RealData(x.ravel(), y.ravel(), sx=sx.ravel(), sy=sy.ravel())` and runs
`ODR(mydata, Model(my_linear), beta0=beta0)`; modelled as the record of what
is passed to the external solver. -/
def regress_odr (x y sx sy : List ℚ) (beta0 : ℚ × ℚ) : ODRInput :=
  ⟨x, y, sx, sy, beta0⟩

/-- Source `get_image_norm_poly(data1, data2, chunk_size)`:

* `med, std = chunk_stats([data1, data2], chunk_size)`;
* `pos = (med[0] > 0.) & (std[0] > 0.) & (std[1] > 0.) & (med[1] > 0.)`,
  a numpy boolean mask over the chunk index, modelled by filtering the zipped
  per-chunk quadruples (all four stat arrays have the same length by
  construction of `chunk_stats`, so zipping loses nothing);
* `guess_slope = np.median(med[1][pos] / med[0][pos])` (elementwise ratios of
  the masked arrays);
* the regression is `regress_odr(x=med[0][pos], y=med[1][pos],
  sx=std[0][pos], sy=std[1][pos], beta0=[0., guess_slope])`;
* returns `result, x, y, sx, sy`. -/
def get_image_norm_poly (data1 data2 : Dataset) (chunk_size : ℕ) :
    ODRInput × List ℚ × List ℚ × List ℚ × List ℚ :=
  let ms := chunk_stats [data1, data2] chunk_size
  let med0 := ms.2.1.getD 0 []
  let med1 := ms.2.1.getD 1 []
  let std0 := ms.2.2.getD 0 []
  let std1 := ms.2.2.getD 1 []
  let quads := (med0.zip med1).zip (std0.zip std1)
  let kept := quads.filter (fun q =>
    decide (0 < q.1.1) && decide (0 < q.2.1) && decide (0 < q.2.2) && decide (0 < q.1.2))
  let x := kept.map (fun q => q.1.1)
  let y := kept.map (fun q => q.1.2)
  let sx := kept.map (fun q => q.2.1)
  let sy := kept.map (fun q => q.2.2)
  let guess_slope := np_median (kept.map (fun q => q.1.2 / q.1.1))
  (regress_odr x y sx sy (0, guess_slope), x, y, sx, sy)

/-- The per-chunk statistic quadruples `((med0, med1), (std0, std1))` of the
two images compared by `get_image_norm_poly`, restricted to the chunks kept
by C9's criterion as the claim words it: median and robust scale strictly
positive in both images. -/
def keptChunks (data1 data2 : Dataset) (chunk_size : ℕ) :
    List ((ℚ × ℚ) × (ℚ × ℚ)) :=
  ((((chunk_stats [data1, data2] chunk_size).2.1.getD 0 []).zip
      ((chunk_stats [data1, data2] chunk_size).2.1.getD 1 [])).zip
    (((chunk_stats [data1, data2] chunk_size).2.2.getD 0 []).zip
      ((chunk_stats [data1, data2] chunk_size).2.2.getD 1 []))).filter
    (fun q => decide (0 < q.1.1 ∧ 0 < q.1.2 ∧ 0 < q.2.1 ∧ 0 < q.2.2))

/-- C9: `get_image_norm_poly` retains exactly the chunks whose median and
robust scale are strictly positive in both images, seeds the
orthogonal-distance regression with intercept `0` and slope the median of
the per-chunk ratios `referenceMedian / exposureMedian` over the retained
chunks (at both call sites `data1` is the exposure and `data2` the
reprojected reference, so `med[1]/med[0]` is reference over exposure), and
hands the retained statistics to the solver as data and error weights. -/
theorem image_norm_poly_filter_and_seed (data1 data2 : Dataset) (chunk_size : ℕ) :
    (get_image_norm_poly data1 data2 chunk_size).1 =
      regress_odr
        ((keptChunks data1 data2 chunk_size).map (fun q => q.1.1))
        ((keptChunks data1 data2 chunk_size).map (fun q => q.1.2))
        ((keptChunks data1 data2 chunk_size).map (fun q => q.2.1))
        ((keptChunks data1 data2 chunk_size).map (fun q => q.2.2))
        (0, np_median ((keptChunks data1 data2 chunk_size).map (fun q => q.1.2 / q.1.1))) ∧
    (get_image_norm_poly data1 data2 chunk_size).2 =
      ((keptChunks data1 data2 chunk_size).map (fun q => q.1.1),
       (keptChunks data1 data2 chunk_size).map (fun q => q.1.2),
       (keptChunks data1 data2 chunk_size).map (fun q => q.2.1),
       (keptChunks data1 data2 chunk_size).map (fun q => q.2.2)) ∧
    ∀ q ∈ keptChunks data1 data2 chunk_size,
      0 < q.1.1 ∧ 0 < q.1.2 ∧ 0 < q.2.1 ∧ 0 < q.2.2 := by
  have hfilt :
      ((((chunk_stats [data1, data2] chunk_size).2.1.getD 0 []).zip
          ((chunk_stats [data1, data2] chunk_size).2.1.getD 1 [])).zip
        (((chunk_stats [data1, data2] chunk_size).2.2.getD 0 []).zip
          ((chunk_stats [data1, data2] chunk_size).2.2.getD 1 []))).filter
        (fun q => decide (0 < q.1.1) && decide (0 < q.2.1) &&
          decide (0 < q.2.2) && decide (0 < q.1.2))
      = keptChunks data1 data2 chunk_size := by
    apply List.filter_congr
    intro q _
    by_cases h1 : 0 < q.1.1 <;> by_cases h2 : 0 < q.1.2 <;>
      by_cases h3 : 0 < q.2.1 <;> by_cases h4 : 0 < q.2.2 <;>
      simp [keptChunks, h1, h2, h3, h4]
  refine ⟨?_, ?_, ?_⟩
  · simp only [get_image_norm_poly, hfilt]
  · simp only [get_image_norm_poly, hfilt]
  · intro q hq
    simp only [keptChunks] at hq
    have hmem := (List.mem_filter.mp hq).2
    simpa using hmem

theorem insertSorted_length (x : ℚ) (l : List ℚ) :
    (insertSorted x l).length = l.length + 1 := by
  induction l with
  | nil => rfl
  | cons y ys ih =>
    by_cases h : x ≤ y
    · simp [insertSorted, h]
    · simp [insertSorted, h, ih]

theorem sortAsc_length (l : List ℚ) : (sortAsc l).length = l.length := by
  induction l with
  | nil => rfl
  | cons y ys ih =>
    show (insertSorted y (sortAsc ys)).length = ys.length + 1
    rw [insertSorted_length, ih]

theorem np_percentile_none_iff (l : List ℚ) (p : ℚ) :
    np_percentile l p = none ↔ l = [] := by
  by_cases hl : l = []
  · subst hl
    simp [np_percentile, sortAsc]
  · have hlen : (sortAsc l).length ≠ 0 := by
      rw [sortAsc_length]
      exact fun h => hl (List.length_eq_zero.mp h)
    simp [np_percentile, hlen, hl]

/-- An image whose pixels may be non-finite (NaN/±Inf), modelled as `none`;
`np.nan_to_num` sends those to `0`. -/
structure RawImage where
  rows : ℕ
  cols : ℕ
  val : ℕ → ℕ → Option ℚ

/-- Source `np.nan_to_num` on one value: non-finite values become `0`. -/
def nan_to_num (v : Option ℚ) : ℚ := v.getD 0

/-- Indices kept by the Python slice `border:-border` on an axis of length
`n`: empty when `border = 0` (since `-0 == 0`, the slice is `[0:0]`),
otherwise the `n - 2*border` indices starting at `border` (empty when the
border swallows the axis). -/
def trimIdx (n border : ℕ) : List ℕ :=
  if border = 0 then [] else (List.range (n - 2 * border)).map (fun k => border + k)

/-- Values of `data[border:-border, border:-border]` in row-major order. -/
def trimmedVals (d : RawImage) (border : ℕ) : List (Option ℚ) :=
  (trimIdx d.rows border).flatMap (fun r => (trimIdx d.cols border).map (fun s => d.val r s))

/-- Source `AlignMusePointing._get_flux_range(data, low=10, high=90)`: trims
the border, applies `np.nan_to_num`, selects the strictly positive values
`data[data > 0.]`, and returns
`(np.percentile(…, 10), np.percentile(…, 90))` — the literals 10 and 90:
the `low` and `high` parameters are accepted but never read by the body.
`none` models the error `np.percentile` raises on an empty selection. -/
def get_flux_range (d : RawImage) (border : ℕ) (low high : ℚ) : Option (ℚ × ℚ) :=
  let data := (trimmedVals d border).map nan_to_num
  let pos := data.filter (fun v => decide (0 < v))
  match np_percentile pos 10, np_percentile pos 90 with
  | some lperc, some hperc => some (lperc, hperc)
  | _, _ => none

/-- A 5×5 image: border of non-finite pixels around the 3×3 block with
values 1..9. -/
def rim5 : RawImage :=
  ⟨5, 5, fun r s =>
    if r = 0 ∨ s = 0 ∨ r = 4 ∨ s = 4 then none else some ((3 * r + s : ℚ) - 3)⟩

/-- C4 counterexample: with caller-chosen percentiles `(low, high) = (50, 90)`
the code still returns the 10th percentile `9/5` as the low value, not the
claimed 50th percentile `5`. -/
theorem flux_range_ignores_percentile_args_cex :
    get_flux_range rim5 1 50 90 = some (9/5, 41/5) ∧
    np_percentile [1, 2, 3, 4, 5, 6, 7, 8, 9] 50 = some 5 ∧
    (9/5 : ℚ) ≠ 5 := by decide

/-- C4 (amended): `get_flux_range` ignores its `low`/`high` arguments and
always returns the 10th and 90th percentiles of the strictly positive pixel
values of the border-trimmed, NaN-zeroed image; it fails (`none`) exactly
when no pixel is positive after trimming. -/
theorem flux_range_fixed_percentiles (d : RawImage) (border : ℕ) (low high : ℚ) :
    get_flux_range d border low high = get_flux_range d border 10 90 ∧
    (∀ lp hp, get_flux_range d border low high = some (lp, hp) →
      np_percentile (((trimmedVals d border).map nan_to_num).filter
        (fun v => decide (0 < v))) 10 = some lp ∧
      np_percentile (((trimmedVals d border).map nan_to_num).filter
        (fun v => decide (0 < v))) 90 = some hp) ∧
    (get_flux_range d border low high = none ↔
      ((trimmedVals d border).map nan_to_num).filter (fun v => decide (0 < v)) = []) := by
  by_cases hempty :
      ((trimmedVals d border).map nan_to_num).filter (fun v => decide (0 < v)) = []
  · have h10 := (np_percentile_none_iff _ 10).mpr hempty
    have h90 := (np_percentile_none_iff _ 90).mpr hempty
    refine ⟨?_, ?_, ?_⟩
    · simp [get_flux_range, h10, h90]
    · intro lp hp hcontra
      simp [get_flux_range, h10, h90] at hcontra
    · rw [show get_flux_range d border low high = none from by
        simp [get_flux_range, h10, h90]]
      simp [hempty]
  · have h10 : np_percentile (((trimmedVals d border).map nan_to_num).filter
        (fun v => decide (0 < v))) 10 ≠ none :=
      fun h => hempty ((np_percentile_none_iff _ 10).mp h)
    have h90 : np_percentile (((trimmedVals d border).map nan_to_num).filter
        (fun v => decide (0 < v))) 90 ≠ none :=
      fun h => hempty ((np_percentile_none_iff _ 90).mp h)
    obtain ⟨l10, hl10⟩ := Option.ne_none_iff_exists'.mp h10
    obtain ⟨h90v, hh90⟩ := Option.ne_none_iff_exists'.mp h90
    refine ⟨?_, ?_, ?_⟩
    · simp [get_flux_range, hl10, hh90]
    · intro lp hp heq
      simp only [get_flux_range, hl10, hh90] at heq
      obtain ⟨rfl, rfl⟩ := Prod.mk.injEq .. ▸ (Option.some_injective _ heq)
      exact ⟨hl10, hh90⟩
    · simp [get_flux_range, hl10, hh90, hempty]

/-- Column names of the persisted offset FITS table. -/
inductive ColName
  | RA_OFFSET
  | DEC_OFFSET
  | RA_OFFSET_ORIG
  | DEC_OFFSET_ORIG
  | RA_CROSS_OFFSET
  | DEC_CROSS_OFFSET
  | FLUX_SCALE
  | DATE_OBS
deriving DecidableEq

/-- An astropy `Table`: an ordered association list of named columns. The
`DATE_OBS` strings are abstracted as rationals — the save path modelled here
only stores them, never inspects them. -/
abbrev OffTable : Type := List (ColName × List ℚ)

/-- Membership test `name in table.columns`. -/
def OffTable.hasCol (t : OffTable) (n : ColName) : Bool := t.any (fun c => c.1 == n)

/-- Column read `table[name]` (junk `[]` when absent; astropy raises). -/
def OffTable.getCol (t : OffTable) (n : ColName) : List ℚ :=
  ((t.find? (fun c => c.1 == n)).map (fun c => c.2)).getD []

/-- Column write `table[name] = v`: astropy replaces an existing column in
place, otherwise appends a new one. -/
def OffTable.setCol (t : OffTable) (n : ColName) (v : List ℚ) : OffTable :=
  if t.hasCol n then t.map (fun c => if c.1 == n then (n, v) else c) else t ++ [(n, v)]

/-- Source `AlignMusePointing.save_fits_offset_table` with the file naming
and table I/O abstracted: `existing` is the result of reading the output
table from disk (`none` when the file does not exist —
`open_offset_table`'s `(False, Table())` case; the `exist_table is None`
abort arises only when no table name is available at all and is outside this
model). The result is the table written, or `none` when nothing is written
(existing table with `overwrite=False`).

The body mirrors the source statement by statement — including source line
441, `fits_table=Table()`, which rebinds `fits_table` to a fresh empty table
immediately after the read, discarding the table just read; the subsequent
`'RA_OFFSET' in fits_table.columns` check therefore always fails, and the
`_ORIG` backup columns its comments describe are never created. -/
def save_fits_offset_table (existing : Option OffTable) (overwrite : Bool)
    (total_off_arcsec cross_off_arcsec : List Vec2)
    (ima_normfactor ima_dateobs : List ℚ) : Option OffTable :=
  let exist_table : Bool := existing.isSome
  let _fits_table_read : OffTable := existing.getD []
  let fits_table : OffTable := []
  let fits_table :=
    if fits_table.hasCol ColName.RA_OFFSET then
      if fits_table.hasCol ColName.RA_OFFSET_ORIG then fits_table
      else
        ((fits_table.setCol ColName.RA_OFFSET_ORIG
            (fits_table.getCol ColName.RA_OFFSET)).setCol ColName.DEC_OFFSET_ORIG
          (fits_table.getCol ColName.DEC_OFFSET))
    else fits_table
  let fits_table := fits_table.setCol ColName.RA_OFFSET
    (total_off_arcsec.map (fun v => v.1 / 3600))
  let fits_table := fits_table.setCol ColName.DEC_OFFSET
    (total_off_arcsec.map (fun v => v.2 / 3600))
  let fits_table := fits_table.setCol ColName.RA_CROSS_OFFSET
    (cross_off_arcsec.map (fun v => v.1 / 3600))
  let fits_table := fits_table.setCol ColName.DEC_CROSS_OFFSET
    (cross_off_arcsec.map (fun v => v.2 / 3600))
  let fits_table := fits_table.setCol ColName.FLUX_SCALE ima_normfactor
  let fits_table := fits_table.setCol ColName.DATE_OBS ima_dateobs
  if exist_table && !overwrite then none else some fits_table

/-- C5 [code bug in the source]: merge-saving over an existing on-disk table
that holds `RA_OFFSET = [1]`, `DEC_OFFSET = [2]` writes a table with no
`RA_OFFSET_ORIG`/`DEC_OFFSET_ORIG` columns at all and with `RA_OFFSET`
replaced by the new totals — the pre-existing offsets are lost, not
preserved under an "ORIG" suffix as the claim (and the source's own
comments) state, because line 441 `fits_table=Table()` discards the table
that was just read. -/
theorem save_offset_table_drops_orig_columns :
    save_fits_offset_table
        (some [(ColName.RA_OFFSET, [1]), (ColName.DEC_OFFSET, [2])]) true
        [(7200, 10800)] [(3600, 3600)] [5] [7] =
      some [(ColName.RA_OFFSET, [2]), (ColName.DEC_OFFSET, [3]),
            (ColName.RA_CROSS_OFFSET, [1]), (ColName.DEC_CROSS_OFFSET, [1]),
            (ColName.FLUX_SCALE, [5]), (ColName.DATE_OBS, [7])] ∧
    OffTable.hasCol
      [(ColName.RA_OFFSET, [2]), (ColName.DEC_OFFSET, [3]),
       (ColName.RA_CROSS_OFFSET, [1]), (ColName.DEC_CROSS_OFFSET, [1]),
       (ColName.FLUX_SCALE, [5]), (ColName.DATE_OBS, [7])] ColName.RA_OFFSET_ORIG = false ∧
    OffTable.getCol
      [(ColName.RA_OFFSET, [2]), (ColName.DEC_OFFSET, [3]),
       (ColName.RA_CROSS_OFFSET, [1]), (ColName.DEC_CROSS_OFFSET, [1]),
       (ColName.FLUX_SCALE, [5]), (ColName.DATE_OBS, [7])] ColName.RA_OFFSET = [2] ∧
    ([2] : List ℚ) ≠ [1] := by decide

/-- A 2-D cross-correlation surface (`ccor`): shape and values. -/
structure Surface where
  rows : ℕ
  cols : ℕ
  val : ℕ → ℕ → ℚ

/-- Row-major flattening of the surface, as scanned by `np.argmax(ccor)`. -/
def Surface.flat (S : Surface) : List ℚ :=
  (List.range (S.rows * S.cols)).map (fun m => S.val (m / S.cols) (m % S.cols))

/-- Entry `subim[a, b]` of the window
`subim = ccor[y % ccor.shape[0], x % ccor.shape[1]]` with
`y, x = np.ix_(arange(-w+maxy, w+1+maxy), arange(-w+maxx, w+1+maxx))`:
wraparound indexing with the Python modulo, which is non-negative for a
positive modulus exactly like `Int.emod`. -/
def subimVal (S : Surface) (w maxy maxx a b : ℕ) : ℚ :=
  S.val ((-(w : ℤ) + maxy + a) % (S.rows : ℤ)).toNat
        ((-(w : ℤ) + maxx + b) % (S.cols : ℤ)).toNat

/-- Row-major flattening of the `(2w+1)×(2w+1)` window. -/
def subimFlat (S : Surface) (w maxy maxx : ℕ) : List ℚ :=
  (List.range ((2 * w + 1) * (2 * w + 1))).map
    (fun m => subimVal S w maxy maxx (m / (2 * w + 1)) (m % (2 * w + 1)))

/-- The window after `subim -= subim.min()`: shifted to a non-negative
baseline. -/
def shiftedWindow (S : Surface) (w maxy maxx : ℕ) : List ℚ :=
  (subimFlat S w maxy maxx).map (fun q => q - np_min (subimFlat S w maxy maxx))

/-- The initial parameters of the astropy `models.Gaussian2D` built in
`find_cross_peak`. -/
structure GaussInit where
  amplitude : ℚ
  x_mean : ℚ
  y_mean : ℚ
  x_stddev : ℚ
  y_stddev : ℚ
  theta : ℚ
deriving DecidableEq

/-- The Gaussian-fit initialization step of
`AlignMusePointing.find_cross_peak` (source lines 563–583):
`maxy, maxx = np.unravel_index(np.argmax(ccor), ccor.shape)`; extract the
window of half-width `window` around it with wraparound indexing; shift it to
a non-negative baseline (`subim -= subim.min()`); take `mx = np.max(subim)`
and `smaxy, smaxx = np.unravel_index(np.argmax(subim), subim.shape)`; and
build `Gaussian2D(amplitude=mx, x_mean=x[0, smaxx], y_mean=y[smaxy, 0],
x_stddev=2, y_stddev=2, theta=0)`, where `x[0, smaxx] = -window + maxx +
smaxx` and `y[smaxy, 0] = -window + maxy + smaxy`. -/
def gauss_init_of (S : Surface) (window : ℕ) : GaussInit :=
  let maxidx := np_argmax S.flat
  let maxy := maxidx / S.cols
  let maxx := maxidx % S.cols
  let shifted := shiftedWindow S window maxy maxx
  let mx := np_max shifted
  let sidx := np_argmax shifted
  let smaxy := sidx / (2 * window + 1)
  let smaxx := sidx % (2 * window + 1)
  { amplitude := mx,
    x_mean := -(window : ℚ) + maxx + smaxx,
    y_mean := -(window : ℚ) + maxy + smaxy,
    x_stddev := 2,
    y_stddev := 2,
    theta := 0 }

/-- The offset returned by `find_cross_peak` given the fitted Gaussian mean
(the Levenberg–Marquardt fit itself is an external numerical collaborator):
`xpix_cross = params.x_mean - ccor.shape[1]//2` and
`ypix_cross = params.y_mean - ccor.shape[0]//2`. -/
def cross_peak_offset (fitted_x_mean fitted_y_mean : ℚ) (S : Surface) : ℚ × ℚ :=
  (fitted_x_mean - (S.cols / 2 : ℕ), fitted_y_mean - (S.rows / 2 : ℕ))

/-- A 3×3 correlation surface with value 5 at the centre and 0 elsewhere. -/
def ccor3 : Surface := ⟨3, 3, fun r s => if r = 1 ∧ s = 1 then 5 else 0⟩

/-- C7 counterexample: the Gaussian is initialized with the window's maximum
value (here 5) as its amplitude, not with unit amplitude as the claim
states. -/
theorem gauss_init_amplitude_cex :
    (gauss_init_of ccor3 1).amplitude = 5 ∧ (5 : ℚ) ≠ 1 := by decide

/-- C7 (amended): the Gaussian fit of `find_cross_peak` is initialized at
the window's own discrete maximum position with amplitude equal to the
shifted window's maximum value (not unit amplitude), standard deviation 2
pixels on each axis and zero rotation, after the extracted window has been
shifted to a non-negative baseline; and the returned offset is the fitted
mean minus `⌊size/2⌋` of the correlation surface along each axis (columns
for x, rows for y). -/
theorem gauss_init_characterization (S : Surface) (w : ℕ) :
    (gauss_init_of S w).x_stddev = 2 ∧
    (gauss_init_of S w).y_stddev = 2 ∧
    (gauss_init_of S w).theta = 0 ∧
    (∀ q ∈ shiftedWindow S w (np_argmax S.flat / S.cols) (np_argmax S.flat % S.cols),
        0 ≤ q) ∧
    (∀ q ∈ shiftedWindow S w (np_argmax S.flat / S.cols) (np_argmax S.flat % S.cols),
        q ≤ (gauss_init_of S w).amplitude) ∧
    (∃ a b, a < 2 * w + 1 ∧ b < 2 * w + 1 ∧
      (shiftedWindow S w (np_argmax S.flat / S.cols) (np_argmax S.flat % S.cols)).getD
          (a * (2 * w + 1) + b) 0 = (gauss_init_of S w).amplitude ∧
      (gauss_init_of S w).x_mean = -(w : ℚ) + (np_argmax S.flat % S.cols : ℕ) + b ∧
      (gauss_init_of S w).y_mean = -(w : ℚ) + (np_argmax S.flat / S.cols : ℕ) + a) ∧
    (∀ fx fy : ℚ, cross_peak_offset fx fy S =
      (fx - (S.cols / 2 : ℕ), fy - (S.rows / 2 : ℕ))) := by
  have hlen : (shiftedWindow S w (np_argmax S.flat / S.cols)
      (np_argmax S.flat % S.cols)).length = (2 * w + 1) * (2 * w + 1) := by
    simp [shiftedWindow, subimFlat]
  have hne : shiftedWindow S w (np_argmax S.flat / S.cols)
      (np_argmax S.flat % S.cols) ≠ [] := by
    apply List.ne_nil_of_length_pos
    rw [hlen]
    exact Nat.mul_pos (by omega) (by omega)
  obtain ⟨hsidx, hval⟩ := np_argmax_spec _ hne
  rw [hlen] at hsidx
  refine ⟨rfl, rfl, rfl, ?_, ?_, ?_, fun fx fy => rfl⟩
  · intro q hq
    simp only [shiftedWindow] at hq
    obtain ⟨x, hx, rfl⟩ := List.mem_map.mp hq
    exact sub_nonneg.mpr (np_min_le _ x hx)
  · intro q hq
    exact le_np_max _ q hq
  · refine ⟨np_argmax (shiftedWindow S w (np_argmax S.flat / S.cols)
        (np_argmax S.flat % S.cols)) / (2 * w + 1),
      np_argmax (shiftedWindow S w (np_argmax S.flat / S.cols)
        (np_argmax S.flat % S.cols)) % (2 * w + 1),
      (Nat.div_lt_iff_lt_mul (by omega)).mpr hsidx,
      Nat.mod_lt _ (by omega), ?_, rfl, rfl⟩
    have heq : np_argmax (shiftedWindow S w (np_argmax S.flat / S.cols)
          (np_argmax S.flat % S.cols)) / (2 * w + 1) * (2 * w + 1) +
        np_argmax (shiftedWindow S w (np_argmax S.flat / S.cols)
          (np_argmax S.flat % S.cols)) % (2 * w + 1) =
        np_argmax (shiftedWindow S w (np_argmax S.flat / S.cols)
          (np_argmax S.flat % S.cols)) := by
      rw [Nat.mul_comm]
      exact Nat.div_add_mod _ _
    rw [heq, hval]
    rfl

/-- The per-exposure offset arrays of `AlignMusePointing`, by value (one
entry per exposure index `nima < n`). Aliasing between the numpy arrays is
irrelevant to the value-level claims: the user-offset update writes only the
`extra_*`/`total_*` entries and reads only `init_*`; the aliasing created by
`init_guess_offset` is itself the subject of C10 and is modelled separately
with an explicit store below. -/
structure AlignState (n : ℕ) where
  cross_off_pixel : Fin n → Vec2
  extra_off_pixel : Fin n → Vec2
  init_off_pixel : Fin n → Vec2
  total_off_pixel : Fin n → Vec2
  cross_off_arcsec : Fin n → Vec2
  extra_off_arcsec : Fin n → Vec2
  init_off_arcsec : Fin n → Vec2
  total_off_arcsec : Fin n → Vec2

instance {n : ℕ} : DecidableEq (AlignState n) := fun s t =>
  decidable_of_iff
    (s.cross_off_pixel = t.cross_off_pixel ∧ s.extra_off_pixel = t.extra_off_pixel ∧
     s.init_off_pixel = t.init_off_pixel ∧ s.total_off_pixel = t.total_off_pixel ∧
     s.cross_off_arcsec = t.cross_off_arcsec ∧ s.extra_off_arcsec = t.extra_off_arcsec ∧
     s.init_off_arcsec = t.init_off_arcsec ∧ s.total_off_arcsec = t.total_off_arcsec)
    (by cases s; cases t; simp)

/-- The `np.zeros` initialization of the eight arrays in
`AlignMusePointing.__init__`. -/
def zeroState (n : ℕ) : AlignState n :=
  ⟨fun _ => (0, 0), fun _ => (0, 0), fun _ => (0, 0), fun _ => (0, 0),
   fun _ => (0, 0), fun _ => (0, 0), fun _ => (0, 0), fun _ => (0, 0)⟩

/-- Source `find_ncross_peak`: for each exposure store the cross-correlation
result (`raw nima`, the value `find_cross_peak` returns — an external
numerical input here) and derive `cross_off_arcsec` through the exposure's
own scale matrix. -/
def find_ncross_peak_vals {n : ℕ} (mats : Fin n → Mat2) (raw : Fin n → Vec2)
    (s : AlignState n) : AlignState n :=
  { s with cross_off_pixel := raw,
           cross_off_arcsec := fun i => pixel_to_arcsec (mats i) (raw i) }

/-- The two initial-guess modes of `init_guess_offset` (an unrecognized
string falls back to `"crosscorr"` with a warning, so these are the only two
behaviours). -/
inductive FirstGuess (n : ℕ)
  | crosscorr
  | fits (table : Option (Fin n → Vec2))

/-- Source `init_guess_offset`, value level:

* `"crosscorr"`: `init_off_arcsec = cross_off_arcsec`,
  `init_off_pixel = cross_off_pixel`;
* `"fits"` with no readable table: `init_off_pixel *= 0.` and
  `init_off_arcsec *= 0.` with a warning (non-fatal fallback);
* `"fits"` with a table: `init_off_arcsec = vstack(RA, DEC).T * 3600.`, then
  per exposure `init_off_pixel[nima] = arcsec_to_pixel(...)`; the
  `np.linalg.inv` exception on a singular scale matrix aborts the call
  (`none`). -/
def init_guess_offset {n : ℕ} (mats : Fin n → Mat2) (fg : FirstGuess n)
    (s : AlignState n) : Option (AlignState n) :=
  match fg with
  | .crosscorr =>
      some { s with init_off_arcsec := s.cross_off_arcsec,
                    init_off_pixel := s.cross_off_pixel }
  | .fits none =>
      some { s with
        init_off_pixel := fun i =>
          ((s.init_off_pixel i).1 * 0, (s.init_off_pixel i).2 * 0),
        init_off_arcsec := fun i =>
          ((s.init_off_arcsec i).1 * 0, (s.init_off_arcsec i).2 * 0) }
  | .fits (some tbl) =>
      let arc : Fin n → Vec2 := fun i => ((tbl i).1 * 3600, (tbl i).2 * 3600)
      if h : ∀ i, (arcsec_to_pixel (mats i) (arc i)).isSome then
        some { s with
          init_off_arcsec := arc,
          init_off_pixel := fun i => (arcsec_to_pixel (mats i) (arc i)).get (h i) }
      else none

/-- Lines 294–295 of `__init__`:
`total_off_arcsec = init_off_arcsec + extra_off_arcsec` and likewise in
pixels (numpy `+` creates fresh arrays). -/
def set_totals {n : ℕ} (s : AlignState n) : AlignState n :=
  { s with
    total_off_arcsec := fun i => addV (s.init_off_arcsec i) (s.extra_off_arcsec i),
    total_off_pixel := fun i => addV (s.init_off_pixel i) (s.extra_off_pixel i) }

/-- Source `AlignMusePointing._add_user_arc_offset(extra_arcsec, nima)`: the
four assignments, in source order, each reading the entries already written
by the earlier lines exactly as the source does. A singular scale matrix
makes `arcsec_to_pixel` raise, aborting the call (`none`; the partially
mutated Python object of the exception path is not reachable by the claims
modelled here, which concern completed calls only). -/
def add_user_arc_offset {n : ℕ} (mats : Fin n → Mat2) (extra_arcsec : Vec2)
    (nima : Fin n) (s : AlignState n) : Option (AlignState n) :=
  let extra_arc := Function.update s.extra_off_arcsec nima extra_arcsec
  let total_arc := Function.update s.total_off_arcsec nima
    (addV (s.init_off_arcsec nima) (extra_arc nima))
  match arcsec_to_pixel (mats nima) (extra_arc nima),
        arcsec_to_pixel (mats nima) (total_arc nima) with
  | some ep, some tp =>
      some { s with extra_off_arcsec := extra_arc,
                    total_off_arcsec := total_arc,
                    extra_off_pixel := Function.update s.extra_off_pixel nima ep,
                    total_off_pixel := Function.update s.total_off_pixel nima tp }
  | _, _ => none

/-- A sequence of user-offset applications (the `shift_arcsecond` calls made
by `run` and `find_norm_factor`), each at its own exposure index. -/
def applyOps {n : ℕ} (mats : Fin n → Mat2) (ops : List (Vec2 × Fin n))
    (s : AlignState n) : Option (AlignState n) :=
  match ops with
  | [] => some s
  | (e, nima) :: rest => (add_user_arc_offset mats e nima s).bind (applyOps mats rest)

/-- The `__init__` pipeline up to the point at which the initial guess has
been set: zero arrays, `find_ncross_peak`, `init_guess_offset`, then the two
total assignments. -/
def setup {n : ℕ} (mats : Fin n → Mat2) (raw : Fin n → Vec2) (fg : FirstGuess n) :
    Option (AlignState n) :=
  (init_guess_offset mats fg (find_ncross_peak_vals mats raw (zeroState n))).map set_totals

/-- The arcsecond entries of the `init` and `extra` arrays are the pixel
entries mapped through the exposure's own scale matrix. -/
def Consistent {n : ℕ} (mats : Fin n → Mat2) (s : AlignState n) : Prop :=
  ∀ i, pixel_to_arcsec (mats i) (s.init_off_pixel i) = s.init_off_arcsec i ∧
       pixel_to_arcsec (mats i) (s.extra_off_pixel i) = s.extra_off_arcsec i

/-- C2's invariant: totals are the exact sums in both unit systems and the
two unit systems agree through the exposure's own scale matrix. -/
def TotalsInv {n : ℕ} (mats : Fin n → Mat2) (s : AlignState n) : Prop :=
  ∀ i, s.total_off_pixel i = addV (s.init_off_pixel i) (s.extra_off_pixel i) ∧
       s.total_off_arcsec i = addV (s.init_off_arcsec i) (s.extra_off_arcsec i) ∧
       s.total_off_arcsec i = pixel_to_arcsec (mats i) (s.total_off_pixel i)

theorem set_totals_inv {n : ℕ} (mats : Fin n → Mat2) (s : AlignState n)
    (hc : Consistent mats s) :
    Consistent mats (set_totals s) ∧ TotalsInv mats (set_totals s) := by
  constructor
  · exact fun i => hc i
  · intro i
    refine ⟨rfl, rfl, ?_⟩
    show addV (s.init_off_arcsec i) (s.extra_off_arcsec i)
        = pixel_to_arcsec (mats i) (addV (s.init_off_pixel i) (s.extra_off_pixel i))
    rw [pixel_to_arcsec_addV, (hc i).1, (hc i).2]

theorem init_guess_consistent {n : ℕ} (mats : Fin n → Mat2)
    (hdet : ∀ i, (mats i).det ≠ 0) (raw : Fin n → Vec2) (fg : FirstGuess n)
    (s' : AlignState n)
    (h : init_guess_offset mats fg (find_ncross_peak_vals mats raw (zeroState n)) = some s') :
    Consistent mats s' := by
  cases fg with
  | crosscorr =>
    simp only [init_guess_offset] at h
    obtain rfl := Option.some_injective _ h
    intro i
    exact ⟨rfl, pixel_to_arcsec_zero (mats i)⟩
  | fits tbl =>
    cases tbl with
    | none =>
      simp only [init_guess_offset] at h
      obtain rfl := Option.some_injective _ h
      intro i
      constructor
      · show pixel_to_arcsec (mats i) (((0 : ℚ) * 0, (0 : ℚ) * 0))
            = (((0 : ℚ) * 0, (0 : ℚ) * 0))
        simp only [pixel_to_arcsec]
        norm_num
      · exact pixel_to_arcsec_zero (mats i)
    | some tbl =>
      simp only [init_guess_offset] at h
      split at h
      next hall =>
        obtain rfl := Option.some_injective _ h
        intro i
        constructor
        · exact pixel_of_arcsec_roundtrip (mats i) (hdet i) _ _
            (Option.some_get (hall i)).symm
        · exact pixel_to_arcsec_zero (mats i)
      next => exact absurd h (by simp)

theorem add_user_arc_offset_preserves {n : ℕ} (mats : Fin n → Mat2)
    (hdet : ∀ i, (mats i).det ≠ 0) (e : Vec2) (nima : Fin n)
    (s s' : AlignState n) (hs : add_user_arc_offset mats e nima s = some s')
    (hc : Consistent mats s) (ht : TotalsInv mats s) :
    Consistent mats s' ∧ TotalsInv mats s' := by
  simp only [add_user_arc_offset] at hs
  split at hs
  case h_2 => exact absurd hs (by simp)
  case h_1 ep tp hep htp =>
    obtain rfl := Option.some_injective _ hs
    rw [Function.update_same] at hep
    rw [Function.update_same, Function.update_same] at htp
    have hpe : pixel_to_arcsec (mats nima) ep = e :=
      pixel_of_arcsec_roundtrip (mats nima) (hdet nima) _ _ hep
    have hpt : pixel_to_arcsec (mats nima) tp = addV (s.init_off_arcsec nima) e :=
      pixel_of_arcsec_roundtrip (mats nima) (hdet nima) _ _ htp
    constructor
    · intro i
      by_cases hi : i = nima
      · subst hi
        refine ⟨(hc i).1, ?_⟩
        show pixel_to_arcsec (mats i) (Function.update s.extra_off_pixel i ep i)
            = Function.update s.extra_off_arcsec i e i
        rw [Function.update_same, Function.update_same]
        exact hpe
      · refine ⟨(hc i).1, ?_⟩
        show pixel_to_arcsec (mats i) (Function.update s.extra_off_pixel nima ep i)
            = Function.update s.extra_off_arcsec nima e i
        rw [Function.update_noteq hi, Function.update_noteq hi]
        exact (hc i).2
    · intro i
      by_cases hi : i = nima
      · subst hi
        refine ⟨?_, ?_, ?_⟩
        · show Function.update s.total_off_pixel i tp i
              = addV (s.init_off_pixel i) (Function.update s.extra_off_pixel i ep i)
          rw [Function.update_same, Function.update_same]
          apply pixel_to_arcsec_inj (mats i) (hdet i)
          rw [hpt, pixel_to_arcsec_addV, (hc i).1, hpe]
        · show Function.update s.total_off_arcsec i
              (addV (s.init_off_arcsec i) (Function.update s.extra_off_arcsec i e i)) i
              = addV (s.init_off_arcsec i) (Function.update s.extra_off_arcsec i e i)
          rw [Function.update_same]
        · show Function.update s.total_off_arcsec i
              (addV (s.init_off_arcsec i) (Function.update s.extra_off_arcsec i e i)) i
              = pixel_to_arcsec (mats i) (Function.update s.total_off_pixel i tp i)
          rw [Function.update_same, Function.update_same, Function.update_same, hpt]
      · refine ⟨?_, ?_, ?_⟩
        · show Function.update s.total_off_pixel nima tp i
              = addV (s.init_off_pixel i) (Function.update s.extra_off_pixel nima ep i)
          rw [Function.update_noteq hi, Function.update_noteq hi]
          exact (ht i).1
        · show Function.update s.total_off_arcsec nima
              (addV (s.init_off_arcsec nima) (Function.update s.extra_off_arcsec nima e nima)) i
              = addV (s.init_off_arcsec i) (Function.update s.extra_off_arcsec nima e i)
          rw [Function.update_noteq hi, Function.update_noteq hi]
          exact (ht i).2.1
        · show Function.update s.total_off_arcsec nima
              (addV (s.init_off_arcsec nima) (Function.update s.extra_off_arcsec nima e nima)) i
              = pixel_to_arcsec (mats i) (Function.update s.total_off_pixel nima tp i)
          rw [Function.update_noteq hi, Function.update_noteq hi]
          exact (ht i).2.2

theorem applyOps_preserves {n : ℕ} (mats : Fin n → Mat2)
    (hdet : ∀ i, (mats i).det ≠ 0) (ops : List (Vec2 × Fin n)) :
    ∀ s s', applyOps mats ops s = some s' →
      Consistent mats s → TotalsInv mats s →
      Consistent mats s' ∧ TotalsInv mats s' := by
  induction ops with
  | nil =>
    intro s s' h hc ht
    obtain rfl := Option.some_injective _ h
    exact ⟨hc, ht⟩
  | cons op rest ih =>
    intro s s' h hc ht
    obtain ⟨e, nima⟩ := op
    rcases hmid : add_user_arc_offset mats e nima s with _ | smid
    · rw [applyOps, hmid] at h
      simp at h
    · rw [applyOps, hmid] at h
      simp only [Option.some_bind] at h
      obtain ⟨hc', ht'⟩ := add_user_arc_offset_preserves mats hdet e nima s smid hmid hc ht
      exact ih smid s' h hc' ht'

/-- C2: for every exposure `i`, at every point after the initial guess has
been set (either mode of `init_guess_offset` followed by the total
assignments of `__init__`) and after any sequence of successful
`_add_user_arc_offset` calls, `total_off_pixel[i] = init_off_pixel[i] +
extra_off_pixel[i]` exactly, `total_off_arcsec[i] = init_off_arcsec[i] +
extra_off_arcsec[i]` exactly, and `total_off_arcsec[i] =
pixel_to_arcsec(total_off_pixel[i])` through exposure `i`'s own scale
matrix (`TotalsInv`); arithmetic is exact here, so there is no conversion
drift. -/
theorem total_offset_invariant {n : ℕ} (mats : Fin n → Mat2)
    (raw : Fin n → Vec2) (fg : FirstGuess n) (ops : List (Vec2 × Fin n))
    (s1 s2 : AlignState n)
    (hdet : ∀ i, (mats i).det ≠ 0)
    (h1 : setup mats raw fg = some s1)
    (h2 : applyOps mats ops s1 = some s2) :
    TotalsInv mats s2 := by
  have hsetup : Consistent mats s1 ∧ TotalsInv mats s1 := by
    rcases hini : init_guess_offset mats fg (find_ncross_peak_vals mats raw (zeroState n))
      with _ | s0
    · rw [setup, hini] at h1
      simp at h1
    · rw [setup, hini] at h1
      simp only [Option.map_some'] at h1
      obtain rfl := Option.some_injective _ h1
      exact set_totals_inv mats s0 (init_guess_consistent mats hdet raw fg s0 hini)
  exact (applyOps_preserves mats hdet ops s1 s2 h2 hsetup.1 hsetup.2).2

/-- Identity pixel-scale matrix for one exposure (witness data). -/
def matsW : Fin 1 → Mat2 := fun _ => ⟨1, 0, 0, 1⟩

/-- Cross-correlation result for the witness run. -/
def rawW : Fin 1 → Vec2 := fun _ => (1, 2)

/-- One user offset of (3600, 0) arcsec at exposure 0 (witness data). -/
def opsW : List (Vec2 × Fin 1) := [((3600, 0), 0)]

/-- The state after `setup` in the witness run. -/
def s1W : AlignState 1 :=
  ⟨fun _ => (1, 2), fun _ => (0, 0), fun _ => (1, 2), fun _ => (1, 2),
   fun _ => (3600, 7200), fun _ => (0, 0), fun _ => (3600, 7200), fun _ => (3600, 7200)⟩

/-- The state after the user offset in the witness run. -/
def s2W : AlignState 1 :=
  ⟨fun _ => (1, 2), fun _ => (1, 0), fun _ => (1, 2), fun _ => (2, 2),
   fun _ => (3600, 7200), fun _ => (3600, 0), fun _ => (3600, 7200), fun _ => (7200, 7200)⟩

/-- Witness for C2 on one exposure with the identity scale matrix. -/
theorem total_offset_invariant_witness : TotalsInv matsW s2W :=
  total_offset_invariant matsW rawW FirstGuess.crosscorr opsW s1W s2W
    (by decide) (by exact congrArg some (by decide)) (by exact congrArg some (by decide))

/-- C8: `_add_user_arc_offset` (the state update performed by
`shift_arcsecond`) is idempotent: a second application of the same extra
offset at the same exposure leaves `extra_off_pixel`, `extra_off_arcsec`,
`total_off_pixel` and `total_off_arcsec` (and every other field) unchanged —
all four assignments depend only on `init_off_arcsec` and the argument, not
on the previous `extra`/`total` entries. -/
theorem add_user_arc_offset_idempotent {n : ℕ} (mats : Fin n → Mat2)
    (e : Vec2) (nima : Fin n) (s s' : AlignState n)
    (hs : add_user_arc_offset mats e nima s = some s') :
    add_user_arc_offset mats e nima s' = some s' := by
  simp only [add_user_arc_offset] at hs ⊢
  split at hs
  case h_2 => exact absurd hs (by simp)
  case h_1 ep tp hep htp =>
    obtain rfl := Option.some_injective _ hs
    rw [Function.update_same] at hep
    rw [Function.update_same, Function.update_same] at htp
    dsimp only
    simp only [Function.update_same, Function.update_idem]
    rw [hep, htp]

/-- The state reached from a zero state by one witness offset application. -/
def idemW : AlignState 1 :=
  ⟨fun _ => (0, 0), fun _ => (1, 0), fun _ => (0, 0), fun _ => (1, 0),
   fun _ => (0, 0), fun _ => (3600, 0), fun _ => (0, 0), fun _ => (3600, 0)⟩

/-- Witness for C8: applying the offset a second time returns the same
state. -/
theorem add_user_arc_offset_idempotent_witness :
    add_user_arc_offset matsW (3600, 0) 0 idemW = some idemW :=
  add_user_arc_offset_idempotent matsW (3600, 0) 0 (zeroState 1) idemW
    (by exact congrArg some (by decide))

/-- A store of numpy arrays for C10: array identifier ↦ (exposure index ↦
2-vector). Distinct identifiers are distinct array objects. -/
structure OffHeap where
  arrs : ℕ → ℕ → Vec2

/-- The array-valued attributes of `AlignMusePointing` involved in C10, as
references (numpy object identities) into the store. -/
structure OffRefs where
  cross_off_pixel : ℕ
  cross_off_arcsec : ℕ
  init_off_pixel : ℕ
  init_off_arcsec : ℕ

/-- Source `init_guess_offset(firstguess="crosscorr")`:
`self.init_off_arcsec = self.cross_off_arcsec` and
`self.init_off_pixel = self.cross_off_pixel` rebind the attributes to the
very same array objects — no copy is made and the store is untouched. -/
def init_guess_crosscorr_refs (o : OffRefs) : OffRefs :=
  { o with init_off_arcsec := o.cross_off_arcsec,
           init_off_pixel := o.cross_off_pixel }

/-- In-place `arr *= 0.` on the array object named `aid`. -/
def scaleArrZero (h : OffHeap) (aid : ℕ) : OffHeap :=
  ⟨fun j => if j = aid then (fun i => ((h.arrs j i).1 * 0, (h.arrs j i).2 * 0))
    else h.arrs j⟩

/-- The missing-table fallback of `init_guess_offset(firstguess="fits")`:
`self.init_off_pixel *= 0.` then `self.init_off_arcsec *= 0.` — in-place
zeroing of whatever array objects the attributes currently reference. -/
def init_guess_fits_missing_refs (o : OffRefs) (h : OffHeap) : OffHeap :=
  scaleArrZero (scaleArrZero h o.init_off_pixel) o.init_off_arcsec

/-- C10: `init_guess_offset("crosscorr")` rebinds `init_off_pixel` and
`init_off_arcsec` to the very same array objects as `cross_off_pixel` and
`cross_off_arcsec` (no copy), so the in-place zeroing performed by the
missing-table fallback of a subsequent `init_guess_offset("fits")` zeroes
every entry of the stored cross-correlation offset arrays as well. -/
theorem init_guess_aliasing_zeroes_cross (o : OffRefs) (h : OffHeap) (i : ℕ) :
    (init_guess_crosscorr_refs o).init_off_pixel = o.cross_off_pixel ∧
    (init_guess_crosscorr_refs o).init_off_arcsec = o.cross_off_arcsec ∧
    (init_guess_fits_missing_refs (init_guess_crosscorr_refs o) h).arrs
      o.cross_off_pixel i = (0, 0) ∧
    (init_guess_fits_missing_refs (init_guess_crosscorr_refs o) h).arrs
      o.cross_off_arcsec i = (0, 0) := by
  refine ⟨rfl, rfl, ?_, ?_⟩
  · by_cases hca : o.cross_off_pixel = o.cross_off_arcsec <;>
      simp [init_guess_fits_missing_refs, init_guess_crosscorr_refs, scaleArrZero, hca]
  · simp [init_guess_fits_missing_refs, init_guess_crosscorr_refs, scaleArrZero]
